import Mathlib

/-!
Verification development for the postsocket Transport Services
connection-establishment engine.  The repository under study is an abstract
API definition (interfaces with documented behavioural contracts); the
behavioural components are therefore modelled from the specification, with
data types (`ParameterIdentifier`, `SendParameters`, the event vocabulary)
taken directly from the declared Go types.
-/

/-! ## Parameter identifiers and values -/

/-- ParameterIdentifier identifies a transport or security parameter.  In the
source it is `type ParameterIdentifier int` with an iota-enumerated constant
list; we model it as `Nat` with the same constants. -/
abbrev ParameterIdentifier := Nat

def TransportFullyReliable : ParameterIdentifier := 0
def TransportOrderPreserved : ParameterIdentifier := 1
def TransportPerMessageReliable : ParameterIdentifier := 2
def TransportIdempotent0RTT : ParameterIdentifier := 3
def TransportMultistreaming : ParameterIdentifier := 4
def TransportTimeoutNegotiationSupport : ParameterIdentifier := 5
def TransportExtendedErrorSupport : ParameterIdentifier := 6
def TransportChecksumControl : ParameterIdentifier := 7
def TransportInterfaceType : ParameterIdentifier := 8
def TransportCapacityProfile : ParameterIdentifier := 9
def TransportTimeout : ParameterIdentifier := 10
def TransportSuggestTimeout : ParameterIdentifier := 11
def TransportRetransmissionThreshold : ParameterIdentifier := 12
def TransportMinimumReceiveChecksumCoverage : ParameterIdentifier := 13
def TransportGroupTransmissionScheduler : ParameterIdentifier := 14
def TransportMaxIdempotent0RTT : ParameterIdentifier := 15
def TransportMaxNoFragment : ParameterIdentifier := 16
def TransportMaxNonpartialSend : ParameterIdentifier := 17
def TransportMaxNonpartialReceive : ParameterIdentifier := 18
def TransportNiceness : ParameterIdentifier := 19
def SecuritySupportedGroup : ParameterIdentifier := 20
def SecurityCiphersuite : ParameterIdentifier := 21
def SecuritySignatureAlgorithm : ParameterIdentifier := 22
def SecuritySessionCacheCapacity : ParameterIdentifier := 23
def SecuritySessionCacheLifetime : ParameterIdentifier := 24
def SecuritySessionCacheReuse : ParameterIdentifier := 25

/-- Modelled from the spec: the taxonomy of errors in section 7 of the spec
(the Go source declares no error values, only `error` returns). -/
inductive TErr where
  | ConfigurationConflict
  | InvalidParameterValue
  | NoViableCandidates
  | ResolutionFailure
  | EstablishmentTimeout
  | AllCandidatesFailed
  | ConnectionClosed
  | TrustVerificationFailed
deriving DecidableEq, Repr

/-- Modelled from the spec: the small fixed set of value shapes used by
parameter identifiers (integer, duration, boolean, enum) from the design
note on typed parameter values. -/
inductive PShape where
  | shInt
  | shDuration
  | shBool
  | shEnum
deriving DecidableEq, Repr

/-- Modelled from the spec: a tagged union over the declared value shapes,
replacing the untyped `interface\x7b\x7d` values of the Go source. -/
inductive PVal where
  | vInt (n : Int)
  | vDur (d : Int)
  | vBool (b : Bool)
  | vEnum (n : Nat)
deriving DecidableEq, Repr

/-- Modelled from the spec: the per-identifier declared value shape.  The
grouping follows section 3 of the spec: the capability flags are boolean,
the timeout and session-cache-lifetime values are durations, the profile and
algorithm selectors are enums, and the counts and thresholds are integers. -/
def shapeOf : ParameterIdentifier → PShape
  | 0 => .shBool
  | 1 => .shBool
  | 2 => .shBool
  | 3 => .shBool
  | 4 => .shBool
  | 5 => .shBool
  | 6 => .shBool
  | 7 => .shBool
  | 8 => .shEnum
  | 9 => .shEnum
  | 10 => .shDuration
  | 11 => .shDuration
  | 12 => .shInt
  | 13 => .shInt
  | 14 => .shEnum
  | 15 => .shInt
  | 16 => .shInt
  | 17 => .shInt
  | 18 => .shInt
  | 19 => .shInt
  | 20 => .shEnum
  | 21 => .shEnum
  | 22 => .shEnum
  | 23 => .shInt
  | 24 => .shDuration
  | 25 => .shBool
  | _ => .shInt

/-- Modelled from the spec: whether a value matches a declared shape. -/
def shapeMatches (v : PVal) (sh : PShape) : Bool :=
  match v, sh with
  | .vInt _, .shInt => true
  | .vDur _, .shDuration => true
  | .vBool _, .shBool => true
  | .vEnum _, .shEnum => true
  | _, _ => false

/-- Modelled from the spec: a shape-correct default value for each
identifier, standing in for the implementation-specific system and user
defaults of `NewTransportParameters`. -/
def defaultFor (p : ParameterIdentifier) : PVal :=
  match shapeOf p with
  | .shInt => .vInt 0
  | .shDuration => .vDur 0
  | .shBool => .vBool false
  | .shEnum => .vEnum 0

/-! ## Dispositions and TransportParameters -/

/-- Modelled from the spec: the disposition strengths attached to a
parameter identifier (`Require`, `Prefer`, `Ignore`, `Avoid`, `Prohibit`). -/
inductive Disposition where
  | requireD
  | preferD
  | ignoreD
  | avoidD
  | prohibitD
deriving DecidableEq, Repr

/-- Modelled from the spec: a TransportParameters set.  The Go source
declares `TransportParameters` as an interface with builder methods that
each return a new set; we realize it as a record of accumulated disposition
entries plus a typed value store for `Get` and `Set`. -/
structure TransportParameters where
  entries : List (ParameterIdentifier × Disposition × Option PVal)
  values : List (ParameterIdentifier × PVal)
deriving DecidableEq, Repr

/-- NewTransportParameters creates a parameter set with defaults (the
defaults live in `defaultFor`, consulted on lookup). -/
def NewTransportParameters : TransportParameters := ⟨[], []⟩

/-- Require protocols and paths selected to fulfill this parameter.
Returns a new TransportParameters with this requirement added. -/
def TransportParameters.Require (s : TransportParameters)
    (p : ParameterIdentifier) (v : Option PVal) : TransportParameters :=
  { s with entries := s.entries ++ [(p, .requireD, v)] }

/-- Prefer protocols and paths selected to fulfill this parameter.
Returns a new TransportParameters with this preference added. -/
def TransportParameters.Prefer (s : TransportParameters)
    (p : ParameterIdentifier) (v : Option PVal) : TransportParameters :=
  { s with entries := s.entries ++ [(p, .preferD, v)] }

/-- Ignore this parameter when selecting protocols and paths.  Returns a
new TransportParameters with this ignorance added. -/
def TransportParameters.Ignore (s : TransportParameters)
    (p : ParameterIdentifier) : TransportParameters :=
  { s with entries := s.entries ++ [(p, .ignoreD, none)] }

/-- Avoid protocols and paths selected to fulfill this parameter.  Returns
a new TransportParameters with this avoidance added. -/
def TransportParameters.Avoid (s : TransportParameters)
    (p : ParameterIdentifier) (v : Option PVal) : TransportParameters :=
  { s with entries := s.entries ++ [(p, .avoidD, v)] }

/-- Prohibit the selection of protocols and paths that fulfill this
parameter.  Returns a new TransportParameters with this prohibition added. -/
def TransportParameters.Prohibit (s : TransportParameters)
    (p : ParameterIdentifier) (v : Option PVal) : TransportParameters :=
  { s with entries := s.entries ++ [(p, .prohibitD, v)] }

/-- Modelled from the spec: the value currently associated with an
identifier, falling back to the context default when never set. -/
def TransportParameters.valueOf (s : TransportParameters)
    (p : ParameterIdentifier) : PVal :=
  match s.values.find? (fun e => e.1 == p) with
  | some e => e.2
  | none => defaultFor p

/-- Set sets the value of a given transport parameter by identifier,
validating the value against the declared shape for that identifier at Set
time and rejecting mismatches with InvalidParameterValue. -/
def TransportParameters.Set (s : TransportParameters)
    (p : ParameterIdentifier) (v : PVal) : Except TErr TransportParameters :=
  if shapeMatches v (shapeOf p) then
    .ok { s with values := (p, v) :: s.values }
  else
    .error .InvalidParameterValue

/-- Get retrieves the current value of a given transport parameter by
identifier, failing with InvalidParameterValue when the associated value
does not match the declared shape for that identifier. -/
def TransportParameters.Get (s : TransportParameters)
    (p : ParameterIdentifier) : Except TErr PVal :=
  let v := s.valueOf p
  if shapeMatches v (shapeOf p) then .ok v else .error .InvalidParameterValue

/-- Modelled from the spec: a value store is well typed when every stored
value matches the declared shape of its identifier. -/
def TransportParameters.WellTyped (s : TransportParameters) : Prop :=
  ∀ e ∈ s.values, shapeMatches e.2 (shapeOf e.1) = true

/-! ## Conflict detection and finalization -/

/-- Modelled from the spec: whether the set holds a given disposition for a
given identifier. -/
def TransportParameters.hasDisp (s : TransportParameters)
    (p : ParameterIdentifier) (d : Disposition) : Bool :=
  s.entries.any (fun e => e.1 == p && e.2.1 == d)

/-- Modelled from the spec: an effective set is conflicted when some
identifier holds both a Require and a Prohibit disposition. -/
def TransportParameters.conflicted (s : TransportParameters) : Bool :=
  s.entries.any (fun e =>
    e.2.1 == Disposition.requireD && s.hasDisp e.1 .prohibitD)

/-- Modelled from the spec: finalization of an effective parameter set, run
at Configure or Preconnect time; a Require and Prohibit on the same
identifier fails with ConfigurationConflict. -/
def finalize (s : TransportParameters) : Except TErr TransportParameters :=
  if s.conflicted then .error .ConfigurationConflict else .ok s

/-! ## Candidates and establishment -/

/-- Modelled from the spec: a candidate protocol stack and path, carrying
the set of parameter identifiers it can fulfill. -/
structure Candidate where
  caps : List ParameterIdentifier
deriving DecidableEq, Repr

/-- Modelled from the spec: the capability predicate of the filter pass; a
candidate survives when it fulfills every Require and fulfills no
Prohibit. -/
def satisfies (s : TransportParameters) (c : Candidate) : Bool :=
  s.entries.all (fun e =>
    match e.2.1 with
    | .requireD => c.caps.contains e.1
    | .prohibitD => !(c.caps.contains e.1)
    | _ => true)

/-- Modelled from the spec: connection establishment over a finalized set.
The candidates are filtered by the Require and Prohibit constraints; an
empty surviving set fails with NoViableCandidates before any network I/O;
otherwise the dial outcomes (abstracted as one Bool per surviving
candidate) decide between the first success and AllCandidatesFailed. -/
def establish (s : TransportParameters) (cands : List Candidate)
    (dials : List Bool) : Except TErr Nat :=
  if (cands.filter (satisfies s)).isEmpty then .error .NoViableCandidates
  else if (dials.take (cands.filter (satisfies s)).length).any id then
    .ok (dials.indexOf true)
  else .error .AllCandidatesFailed

/-- Modelled from the spec: the Configure-then-Initiate pipeline; the set
is finalized at configuration time and establishment runs only on a
successfully finalized set. -/
def configureThenEstablish (s : TransportParameters) (cands : List Candidate)
    (dials : List Bool) : Except TErr Nat :=
  (finalize s).bind fun fs => establish fs cands dials

/-! ## Endpoint specifiers -/

/-- Modelled from the source type `net.IP`: an IP address as a byte list. -/
abbrev IPAddr := List Nat

/-- Remote specifies a remote endpoint by hostname, address, port, and or
service name; multiple of each may be given.  The Go source declares it as
an interface whose with-X methods each return a new specifier with one
alternative added; we realize it as a record of the accumulated
alternatives. -/
structure Remote where
  hostnames : List String
  addresses : List IPAddr
  ports : List Nat
  serviceNames : List String
deriving DecidableEq, Repr

/-- NewRemote creates a new, empty Remote specifier. -/
def NewRemote : Remote := ⟨[], [], [], []⟩

/-- Return a remote specifier with the given hostname added to this
specifier. -/
def Remote.WithHostname (r : Remote) (hostname : String) : Remote :=
  { r with hostnames := r.hostnames ++ [hostname] }

/-- Return a remote specifier with the given IPv4 or IPv6 address added to
this specifier. -/
def Remote.WithAddress (r : Remote) (address : IPAddr) : Remote :=
  { r with addresses := r.addresses ++ [address] }

/-- Return a remote specifier with the given transport port added to this
specifier. -/
def Remote.WithPort (r : Remote) (port : Nat) : Remote :=
  { r with ports := r.ports ++ [port] }

/-- Return a remote specifier with the given service name added to this
specifier. -/
def Remote.WithServiceName (r : Remote) (svc : String) : Remote :=
  { r with serviceNames := r.serviceNames ++ [svc] }

/-- Local specifies a local endpoint by interface name, hostname, address,
port, and or service name; multiple of each may be given.  Realized like
`Remote`, with the additional interface alternatives. -/
structure Local where
  interfaces : List String
  hostnames : List String
  addresses : List IPAddr
  ports : List Nat
  serviceNames : List String
deriving DecidableEq, Repr

/-- NewLocal creates a new Local specifier. -/
def NewLocal : Local := ⟨[], [], [], [], []⟩

/-- Return a local specifier with the given local network interface name or
alias added to this specifier. -/
def Local.WithInterface (l : Local) (iface : String) : Local :=
  { l with interfaces := l.interfaces ++ [iface] }

/-- Return a local specifier with the given hostname added to this
specifier. -/
def Local.WithHostname (l : Local) (hostname : String) : Local :=
  { l with hostnames := l.hostnames ++ [hostname] }

/-- Return a local specifier with the given IPv4 or IPv6 address added to
this specifier. -/
def Local.WithAddress (l : Local) (address : IPAddr) : Local :=
  { l with addresses := l.addresses ++ [address] }

/-- Return a local specifier with the given transport port added to this
specifier. -/
def Local.WithPort (l : Local) (port : Nat) : Local :=
  { l with ports := l.ports ++ [port] }

/-- Return a local specifier with the given service name added to this
specifier. -/
def Local.WithServiceName (l : Local) (svc : String) : Local :=
  { l with serviceNames := l.serviceNames ++ [svc] }

/-! ## SendParameters and the per-message lifetime machine -/

/-- SendParameters contains the set of parameters used for sending
Messages, copied field for field from the Go struct; `time.Duration` is a
signed integer count of nanoseconds, modelled as `Int`. -/
structure SendParameters where
  Lifetime : Int
  Niceness : Nat
  Ordered : Bool
  Immediate : Bool
  Idempotent : Bool
  CorruptionTolerant : Bool
  CapacityProfile : Nat
deriving DecidableEq, Repr

/-- DefaultSendParameters returns a SendParameters object with default
values (zero lifetime requests fully reliable transport). -/
def DefaultSendParameters : SendParameters := ⟨0, 0, false, false, false, false, 0⟩

/-- Modelled from the spec: whether submitting a message with these send
parameters arms a lifetime expiry timer; a lifetime of zero or less
specifies fully reliable transport and arms none. -/
def armsTimer (sp : SendParameters) : Bool := 0 < sp.Lifetime

/-- Modelled from the spec: the things that can happen to one submitted
message: its lifetime timer fires, it is handed to the protocol stack for
transmission, or the stack reports it sent. -/
inductive MOcc where
  | timerFire
  | handover
  | stackSent
deriving DecidableEq, Repr

/-- Modelled from the spec: the lifecycle state of one submitted message:
still queued, handed to the stack, or expired and removed from the queue. -/
inductive MSt where
  | queued
  | handed
  | expiredM
deriving DecidableEq, Repr

/-- Modelled from the spec: the events the dispatcher can deliver for one
message. -/
inductive MEv where
  | sentE
  | expiredE
deriving DecidableEq, Repr

/-- Modelled from the spec: one step of the per-message machine.  A timer
firing while the message is still queued removes it and emits Expired; a
handover moves it to the stack; a stack send report on a handed message
emits Sent; an expired message is gone from the queue, so nothing further
happens to it. -/
def mstep : MSt × List MEv → MOcc → MSt × List MEv
  | (.queued, tr), .timerFire => (.expiredM, tr ++ [.expiredE])
  | (.queued, tr), .handover => (.handed, tr)
  | (.queued, tr), .stackSent => (.queued, tr)
  | (.handed, tr), .stackSent => (.handed, tr ++ [.sentE])
  | (.handed, tr), _ => (.handed, tr)
  | (.expiredM, tr), _ => (.expiredM, tr)

/-- Modelled from the spec: run the per-message machine from submission
over a sequence of occurrences. -/
def mrun (occs : List MOcc) : MSt × List MEv :=
  occs.foldl mstep (.queued, [])

/-- Modelled from the spec: an occurrence sequence is realizable for given
send parameters when the lifetime timer only fires if one was armed at
submission. -/
def realizable (sp : SendParameters) (occs : List MOcc) : Prop :=
  MOcc.timerFire ∈ occs → armsTimer sp = true

/-! ## The per-connection message scheduler -/

/-- Modelled from the spec: one queued outbound message: its reference, its
submission sequence number, its niceness (0 is most urgent) and its ordered
flag, mirroring the `OutMessage` and `SendParameters` fields of the
source. -/
structure QMsg where
  ref : Nat
  seq : Nat
  niceness : Nat
  ordered : Bool
deriving DecidableEq, Repr

/-- Modelled from the spec: a message is eligible to leave the queue unless
it is ordered and some other ordered message was submitted earlier;
ordering is a hard constraint binding only pairs of ordered messages. -/
def eligible (q : List QMsg) (m : QMsg) : Bool :=
  !m.ordered || q.all (fun x => !x.ordered || decide (m.seq ≤ x.seq))

/-- Modelled from the spec: scheduling preference between eligible
messages: niceness ascending, ties broken FIFO by submission order. -/
def pref (a b : QMsg) : Bool :=
  decide (a.niceness < b.niceness ∨ (a.niceness = b.niceness ∧ a.seq ≤ b.seq))

/-- Modelled from the spec: fold selecting the most preferred message of a
nonempty list. -/
def chooseBest : QMsg → List QMsg → QMsg
  | best, [] => best
  | best, x :: rest => chooseBest (if pref x best then x else best) rest

/-- Modelled from the spec: fold selecting a message of minimal submission
sequence number, used to show the queue always has an eligible message. -/
def seqMin : QMsg → List QMsg → QMsg
  | m, [] => m
  | m, x :: rest => seqMin (if x.seq < m.seq then x else m) rest

/-- Modelled from the spec: the scheduler selects the most preferred
eligible message of the queue, if any. -/
def selectNext (q : List QMsg) : Option QMsg :=
  match q.filter (eligible q) with
  | [] => none
  | e :: es => some (chooseBest e es)

/-- Modelled from the spec: repeatedly hand the selected message to the
stack, with explicit fuel for structural recursion. -/
def drainFuel : Nat → List QMsg → List QMsg
  | 0, _ => []
  | n + 1, q =>
    match selectNext q with
    | none => []
    | some m => m :: drainFuel n (q.erase m)

/-- Modelled from the spec: the order in which the queued messages are
handed to the protocol stack. -/
def drain (q : List QMsg) : List QMsg := drainFuel q.length q

/-! ## The connection racer and lifecycle machine -/

/-- Modelled from the spec: how a Connection came to exist: top-level
Initiate, Rendezvous, passive acceptance via a listening Connection, or
Clone of a source Connection. -/
inductive Origin where
  | initiateO
  | rendezvousO
  | listenO (listener : Nat)
  | cloneO (source : Nat)
deriving DecidableEq, Repr

/-- Modelled from the source comment on `EventHandler.Ready`: the
antecedent passed to Ready is nil for Initiate and Rendezvous, the
listening Connection for accepted Connections, and the source Connection
for Clone. -/
def anteOf : Origin → Option Nat
  | .initiateO => none
  | .rendezvousO => none
  | .listenO l => some l
  | .cloneO s => some s

/-- Modelled from the spec: Connection lifecycle states. -/
inductive CState where
  | initiating
  | established
  | closedS
  | failedS
deriving DecidableEq, Repr

/-- Modelled from the spec: the status of one candidate dial attempt. -/
inductive AState where
  | inflight
  | failedA
  | cancelledA
  | wonA
deriving DecidableEq, Repr

/-- Modelled from the spec: the events the dispatcher delivers for one
Connection; Ready carries the antecedent reference. -/
inductive REv where
  | ready (a : Option Nat)
  | sent (r : Nat)
  | expired (r : Nat)
  | errorEv
  | closedEv
deriving DecidableEq, Repr

/-- Modelled from the spec: the racer and connection state: lifecycle
state, per-attempt statuses, the fixed antecedent reference, and the event
trace delivered so far. -/
structure RState where
  conn : CState
  attempts : List AState
  ante : Option Nat
  trace : List REv
deriving DecidableEq, Repr

/-- Modelled from the spec: the occurrences driving the racer and the
established Connection: a candidate attempt succeeds or fails, a message is
reported sent or expired, a non-closing error occurs, or Close is called. -/
inductive ROcc where
  | succeed (i : Nat)
  | failO (i : Nat)
  | sentO (r : Nat)
  | expiredO (r : Nat)
  | errO
  | closeO
deriving DecidableEq, Repr

/-- Modelled from the spec: promotion of attempt `i` to the winner:
cooperatively cancel every other in-flight attempt and mark `i` won. -/
def promote (l : List AState) (i : Nat) : List AState :=
  (l.map fun a => if a = .inflight then .cancelledA else a).set i .wonA

/-- Modelled from the spec: one step of the racer and lifecycle machine.  A
success while Initiating with the attempt still in flight promotes it,
fires the single Ready with the fixed antecedent, and cancels the other
in-flight attempts; a success of a cancelled or failed attempt is ignored,
never promoted.  A failure marks the attempt failed, and when every attempt
has failed the Connection transitions to Failed, reporting the aggregate
failure via Error with no Ready.  Sent, Expired, Error and Close take
effect only on an Established connection, and nothing follows Closed. -/
def rstep (s : RState) (o : ROcc) : RState :=
  match o with
  | .succeed i =>
    if s.conn = .initiating ∧ s.attempts[i]? = some .inflight then
      { s with conn := .established, attempts := promote s.attempts i,
               trace := s.trace ++ [.ready s.ante] }
    else s
  | .failO i =>
    if s.conn = .initiating ∧ s.attempts[i]? = some .inflight then
      if (s.attempts.set i .failedA).all (fun x => x == .failedA) then
        { s with conn := .failedS, attempts := s.attempts.set i .failedA,
                 trace := s.trace ++ [.errorEv] }
      else { s with attempts := s.attempts.set i .failedA }
    else s
  | .sentO r =>
    if s.conn = .established then { s with trace := s.trace ++ [.sent r] } else s
  | .expiredO r =>
    if s.conn = .established then { s with trace := s.trace ++ [.expired r] } else s
  | .errO =>
    if s.conn = .established then { s with trace := s.trace ++ [.errorEv] } else s
  | .closeO =>
    if s.conn = .established then
      { s with conn := .closedS, trace := s.trace ++ [.closedEv] }
    else s

/-- Modelled from the spec: the initial racer state for a Connection with
`n` ranked candidate attempts and the given origin. -/
def rinit (o : Origin) (n : Nat) : RState :=
  ⟨.initiating, List.replicate n .inflight, anteOf o, []⟩

/-- Modelled from the spec: run the racer and lifecycle machine. -/
def rrun (o : Origin) (n : Nat) (occs : List ROcc) : RState :=
  occs.foldl rstep (rinit o n)

/-- Modelled from the spec: the number of Ready events in a trace. -/
def countReady (tr : List REv) : Nat :=
  (tr.filter (fun e => match e with | .ready _ => true | _ => false)).length

/-! ## The close machine -/

/-- Modelled from the spec: the commands an established Connection receives
from its application threads and its remote peer, in interleaved order: a
Close call, a Send call, or a remote close. -/
inductive CCmd where
  | closeCmd
  | sendCmd (r : Nat)
  | remoteCloseCmd
deriving DecidableEq, Repr

/-- Modelled from the spec: the close-path state of an established
Connection: whether it is still open, and the events delivered so far. -/
structure CloseSt where
  isOpen : Bool
  trace : List REv
deriving DecidableEq, Repr

/-- Modelled from the spec: one serialized effect on the Connection.  The
first Close (local or remote) delivers the one Closed event and closes the
Connection; later Close calls are no-ops; a Send on an open Connection is
delivered and reported Sent, a Send after close fails with ConnectionClosed
and delivers no event. -/
def cstep (s : CloseSt) (c : CCmd) : CloseSt :=
  match c with
  | .closeCmd => if s.isOpen then ⟨false, s.trace ++ [.closedEv]⟩ else s
  | .sendCmd r => if s.isOpen then ⟨true, s.trace ++ [.sent r]⟩ else s
  | .remoteCloseCmd => if s.isOpen then ⟨false, s.trace ++ [.closedEv]⟩ else s

/-- Modelled from the spec: run the close machine from an open established
Connection over the serialized interleaving of commands. -/
def crun (cmds : List CCmd) : CloseSt := cmds.foldl cstep ⟨true, []⟩

/-! ## The error reporting machine -/

/-- Modelled from the spec: an error occurrence on a connection, tagged
with an identity and whether it causes the connection to close. -/
inductive EOcc where
  | errOcc (i : Nat) (closing : Bool)
deriving DecidableEq, Repr

/-- Modelled from the spec: how an error is reported: through the Error
event, or through the Closed event carrying it as its err argument. -/
inductive EEv where
  | errorRep (i : Nat)
  | closedRep (carried : Option Nat)
deriving DecidableEq, Repr

/-- Modelled from the spec: the error reporting state of a Connection. -/
structure ESt where
  isOpen : Bool
  trace : List EEv
deriving DecidableEq, Repr

/-- Modelled from the source comment on `EventHandler.Error`: the Error
event only occurs for errors which do not also cause the connection to
close; a connection-closing error causes the Closed event, carrying the
error. -/
def estep (s : ESt) (o : EOcc) : ESt :=
  match o with
  | .errOcc i closing =>
    if s.isOpen then
      if closing then ⟨false, s.trace ++ [.closedRep (some i)]⟩
      else ⟨true, s.trace ++ [.errorRep i]⟩
    else s

/-- Modelled from the spec: run the error reporting machine on an open
Connection. -/
def erun (occs : List EOcc) : ESt := occs.foldl estep ⟨true, []⟩

/-- Modelled from the spec: the identity of an error occurrence. -/
def eid : EOcc → Nat
  | .errOcc i _ => i

/-- Modelled from the spec: the racer invariant tying the lifecycle state
to the delivered trace and the attempt statuses: before establishment no
event has been delivered and nothing has won; after terminal failure the
single aggregate Error is the whole trace and nothing has won; once
established (and afterwards) the trace starts with the single Ready
carrying the fixed antecedent, exactly one attempt has won, and no attempt
is still in flight. -/
def RInv (s : RState) : Prop :=
  (s.conn = .initiating → s.trace = [] ∧ AState.wonA ∉ s.attempts) ∧
  (s.conn = .failedS → s.trace = [.errorEv] ∧ AState.wonA ∉ s.attempts) ∧
  (s.conn = .established ∨ s.conn = .closedS →
    (∃ rest, s.trace = .ready s.ante :: rest ∧ countReady rest = 0) ∧
    s.attempts.count .wonA = 1 ∧ AState.inflight ∉ s.attempts)

/-! ## Helper lemmas -/

theorem defaultFor_matches (p : ParameterIdentifier) :
    shapeMatches (defaultFor p) (shapeOf p) = true := by
  unfold defaultFor
  cases h : shapeOf p <;> simp [h, shapeMatches]

theorem valueOf_wellTyped {s : TransportParameters} (hs : s.WellTyped)
    (p : ParameterIdentifier) :
    shapeMatches (s.valueOf p) (shapeOf p) = true := by
  unfold TransportParameters.valueOf
  cases hfind : s.values.find? (fun e => e.1 == p) with
  | none => exact defaultFor_matches p
  | some e =>
    have hmem := List.mem_of_find?_eq_some hfind
    have hp : e.1 = p := by
      have := List.find?_some hfind
      simpa using this
    have hm := hs e hmem
    rw [← hp]
    exact hm

/-! ## Claim theorems: parameters -/

/-- C2: finalizing an effective parameter set holding both Require(P, v)
and Prohibit(P, v) for the same P fails with ConfigurationConflict at
finalize time (hence at Configure or Preconnect), and establishment never
reports ConfigurationConflict itself, for all P and v. -/
theorem require_prohibit_conflict_at_finalize
    (s : TransportParameters) (p : ParameterIdentifier) (v : Option PVal)
    (hreq : (p, Disposition.requireD, v) ∈ s.entries)
    (hpro : (p, Disposition.prohibitD, v) ∈ s.entries) :
    finalize s = .error .ConfigurationConflict ∧
    (∀ cands dials,
      configureThenEstablish s cands dials = .error .ConfigurationConflict) ∧
    (∀ t cands dials, establish t cands dials ≠ .error .ConfigurationConflict) := by
  have hconf : s.conflicted = true := by
    unfold TransportParameters.conflicted
    rw [List.any_eq_true]
    refine ⟨(p, .requireD, v), hreq, ?_⟩
    simp only [Bool.and_eq_true, beq_iff_eq]
    refine ⟨by simp, ?_⟩
    unfold TransportParameters.hasDisp
    rw [List.any_eq_true]
    exact ⟨(p, .prohibitD, v), hpro, by simp⟩
  refine ⟨?_, ?_, ?_⟩
  · simp [finalize, hconf]
  · intro cands dials
    simp [configureThenEstablish, finalize, hconf, Except.bind]
  · intro t cands dials h
    unfold establish at h
    split at h
    · simp at h
    · split at h
      · simp at h
      · simp at h

/-- C2 witness at a concrete conflicted set. -/
theorem require_prohibit_conflict_at_finalize_witness :
    finalize ((NewTransportParameters.Require 0 none).Prohibit 0 none)
      = .error .ConfigurationConflict :=
  (require_prohibit_conflict_at_finalize
    ((NewTransportParameters.Require 0 none).Prohibit 0 none) 0 none
    (by decide) (by decide)).1

/-- C7: every disposition operation on a parameter set and every with-X
operation on an endpoint specifier returns a new value with exactly the one
disposition or alternative added at the end and every other component of
the receiver unchanged; the receiver itself is a pure value, so the same
base can derive multiple independent specifiers. -/
theorem builder_ops_pure_frame (s : TransportParameters)
    (p : ParameterIdentifier) (v : Option PVal) (r : Remote) (l : Local)
    (hn svc iface : String) (ad : IPAddr) (pt : Nat) :
    s.Require p v = ⟨s.entries ++ [(p, .requireD, v)], s.values⟩ ∧
    s.Prefer p v = ⟨s.entries ++ [(p, .preferD, v)], s.values⟩ ∧
    s.Ignore p = ⟨s.entries ++ [(p, .ignoreD, none)], s.values⟩ ∧
    s.Avoid p v = ⟨s.entries ++ [(p, .avoidD, v)], s.values⟩ ∧
    s.Prohibit p v = ⟨s.entries ++ [(p, .prohibitD, v)], s.values⟩ ∧
    r.WithHostname hn = ⟨r.hostnames ++ [hn], r.addresses, r.ports, r.serviceNames⟩ ∧
    r.WithAddress ad = ⟨r.hostnames, r.addresses ++ [ad], r.ports, r.serviceNames⟩ ∧
    r.WithPort pt = ⟨r.hostnames, r.addresses, r.ports ++ [pt], r.serviceNames⟩ ∧
    r.WithServiceName svc = ⟨r.hostnames, r.addresses, r.ports, r.serviceNames ++ [svc]⟩ ∧
    l.WithInterface iface = ⟨l.interfaces ++ [iface], l.hostnames, l.addresses, l.ports, l.serviceNames⟩ ∧
    l.WithHostname hn = ⟨l.interfaces, l.hostnames ++ [hn], l.addresses, l.ports, l.serviceNames⟩ ∧
    l.WithAddress ad = ⟨l.interfaces, l.hostnames, l.addresses ++ [ad], l.ports, l.serviceNames⟩ ∧
    l.WithPort pt = ⟨l.interfaces, l.hostnames, l.addresses, l.ports ++ [pt], l.serviceNames⟩ ∧
    l.WithServiceName svc = ⟨l.interfaces, l.hostnames, l.addresses, l.ports, l.serviceNames ++ [svc]⟩ :=
  ⟨rfl, rfl, rfl, rfl, rfl, rfl, rfl, rfl, rfl, rfl, rfl, rfl, rfl, rfl⟩

/-- C8: Set rejects a value of the wrong shape for the identifier with
InvalidParameterValue at Set time; Get fails with InvalidParameterValue
exactly when the associated value does not match the declared shape; and on
well-typed stores (which Set preserves) Get never fails, so no mismatch is
deferred to a later runtime assertion. -/
theorem get_set_shape_validation :
    (∀ (s : TransportParameters) (p : ParameterIdentifier) (v : PVal),
      s.Set p v = .error .InvalidParameterValue ↔
        shapeMatches v (shapeOf p) = false) ∧
    (∀ (s : TransportParameters) (p : ParameterIdentifier) (v : PVal),
      shapeMatches v (shapeOf p) = true →
        s.Set p v = .ok { s with values := (p, v) :: s.values }) ∧
    (∀ (s : TransportParameters) (p : ParameterIdentifier),
      s.Get p = .error .InvalidParameterValue ↔
        shapeMatches (s.valueOf p) (shapeOf p) = false) ∧
    (∀ (s : TransportParameters) (p : ParameterIdentifier) (v : PVal)
      (t : TransportParameters), s.WellTyped → s.Set p v = .ok t →
        t.WellTyped) ∧
    (∀ (s : TransportParameters) (p : ParameterIdentifier),
      s.WellTyped → s.Get p = .ok (s.valueOf p)) := by
  refine ⟨?_, ?_, ?_, ?_, ?_⟩
  · intro s p v
    by_cases h : shapeMatches v (shapeOf p) = true
    · simp [TransportParameters.Set, h]
    · have hf : shapeMatches v (shapeOf p) = false := by simpa using h
      simp [TransportParameters.Set, hf]
  · intro s p v h
    simp [TransportParameters.Set, h]
  · intro s p
    by_cases h : shapeMatches (s.valueOf p) (shapeOf p) = true
    · simp [TransportParameters.Get, h]
    · have hf : shapeMatches (s.valueOf p) (shapeOf p) = false := by simpa using h
      simp [TransportParameters.Get, hf]
  · intro s p v t hs hset
    unfold TransportParameters.Set at hset
    split at hset
    · rename_i hmatch
      have ht : t = { s with values := (p, v) :: s.values } :=
        (Except.ok.inj hset).symm
      subst ht
      intro e he
      rcases List.mem_cons.mp he with he1 | he2
      · subst he1
        exact hmatch
      · exact hs e he2
    · cases hset
  · intro s p hs
    simp [TransportParameters.Get, valueOf_wellTyped hs p]

/-- C8 witness: a duration-shaped identifier rejects a boolean at Set time,
and Get succeeds on the empty well-typed store. -/
theorem get_set_shape_validation_witness :
    NewTransportParameters.Set TransportTimeout (PVal.vBool true)
      = .error .InvalidParameterValue ∧
    NewTransportParameters.Get TransportNiceness
      = .ok (NewTransportParameters.valueOf TransportNiceness) :=
  ⟨(get_set_shape_validation.1 NewTransportParameters TransportTimeout
      (PVal.vBool true)).mpr (by decide),
   get_set_shape_validation.2.2.2.2 NewTransportParameters TransportNiceness
      (by intro e he; simp [NewTransportParameters] at he)⟩

/-! ## Claim theorems: message lifetime -/

theorem foldl_mstep_queued (pre : List MOcc) (tr : List MEv)
    (h1 : MOcc.timerFire ∉ pre) (h2 : MOcc.handover ∉ pre) :
    pre.foldl mstep (.queued, tr) = (.queued, tr) := by
  induction pre with
  | nil => rfl
  | cons o rest ih =>
    rw [List.foldl_cons]
    have ho : mstep (.queued, tr) o = (.queued, tr) := by
      cases o with
      | timerFire => exact absurd (List.mem_cons_self _ _) h1
      | handover => exact absurd (List.mem_cons_self _ _) h2
      | stackSent => rfl
    rw [ho]
    exact ih (fun h => h1 (List.mem_cons_of_mem _ h))
      (fun h => h2 (List.mem_cons_of_mem _ h))

theorem mstep_expired_inert (tr : List MEv) (o : MOcc) :
    mstep (.expiredM, tr) o = (.expiredM, tr) := by
  cases o <;> rfl

theorem foldl_mstep_expired (post : List MOcc) (tr : List MEv) :
    post.foldl mstep (.expiredM, tr) = (.expiredM, tr) := by
  induction post with
  | nil => rfl
  | cons o rest ih => rw [List.foldl_cons, mstep_expired_inert]; exact ih

/-- C3: when the lifetime timer of a submitted message fires before the
message is handed to the protocol stack, the message is removed from the
queue, exactly one Expired event is delivered for it, and no Sent event is
ever delivered for it afterwards. -/
theorem lifetime_expiry_exactly_one_expired_no_sent
    (pre post : List MOcc)
    (h1 : MOcc.handover ∉ pre) (h2 : MOcc.timerFire ∉ pre) :
    (mrun (pre ++ MOcc.timerFire :: post)).1 = .expiredM ∧
    (mrun (pre ++ MOcc.timerFire :: post)).2.count .expiredE = 1 ∧
    (mrun (pre ++ MOcc.timerFire :: post)).2.count .sentE = 0 := by
  have hrun : mrun (pre ++ MOcc.timerFire :: post) = (.expiredM, [.expiredE]) := by
    unfold mrun
    rw [List.foldl_append, foldl_mstep_queued pre [] h2 h1, List.foldl_cons]
    have h3 : mstep (.queued, []) .timerFire = (.expiredM, [.expiredE]) := rfl
    rw [h3, foldl_mstep_expired]
  rw [hrun]
  exact ⟨rfl, by decide, by decide⟩

/-- C3 witness: a message whose timer fires before any handover, with a
handover and a send report arriving late. -/
theorem lifetime_expiry_exactly_one_expired_no_sent_witness :
    (mrun ([MOcc.stackSent] ++ MOcc.timerFire ::
      [MOcc.handover, MOcc.stackSent])).1 = .expiredM ∧
    (mrun ([MOcc.stackSent] ++ MOcc.timerFire ::
      [MOcc.handover, MOcc.stackSent])).2.count .expiredE = 1 ∧
    (mrun ([MOcc.stackSent] ++ MOcc.timerFire ::
      [MOcc.handover, MOcc.stackSent])).2.count .sentE = 0 :=
  lifetime_expiry_exactly_one_expired_no_sent [MOcc.stackSent]
    [MOcc.handover, MOcc.stackSent] (by decide) (by decide)

theorem mstep_no_fire_count (st : MSt × List MEv) (o : MOcc)
    (h : o ≠ .timerFire) :
    (mstep st o).2.count .expiredE = st.2.count .expiredE := by
  obtain ⟨m, tr⟩ := st
  cases m <;> cases o <;>
    first
    | exact absurd rfl h
    | rfl
    | simp [mstep, List.count_append]

theorem foldl_mstep_no_fire (occs : List MOcc) (st : MSt × List MEv)
    (h : MOcc.timerFire ∉ occs) :
    ((occs.foldl mstep st).2).count .expiredE = st.2.count .expiredE := by
  induction occs generalizing st with
  | nil => rfl
  | cons o rest ih =>
    rw [List.foldl_cons]
    rw [ih _ (fun hm => h (List.mem_cons_of_mem _ hm))]
    exact mstep_no_fire_count st o (fun he => h (he ▸ List.mem_cons_self _ _))

/-- C10: a message sent with a zero or negative Lifetime requests fully
reliable transport: no expiry timer is armed at submission, and no
realizable run of the message ever delivers an Expired event for it. -/
theorem nonpositive_lifetime_fully_reliable_no_expired
    (sp : SendParameters) (occs : List MOcc)
    (hl : sp.Lifetime ≤ 0) (hr : realizable sp occs) :
    armsTimer sp = false ∧ (mrun occs).2.count .expiredE = 0 := by
  have ha : armsTimer sp = false := by
    unfold armsTimer
    simp only [decide_eq_false_iff_not]
    omega
  have hnf : MOcc.timerFire ∉ occs := by
    intro hm
    have hc := hr hm
    rw [ha] at hc
    cases hc
  refine ⟨ha, ?_⟩
  have hcount := foldl_mstep_no_fire occs (.queued, []) hnf
  simpa [mrun] using hcount

/-- C10 witness: the default send parameters have zero lifetime; a run that
hands the message over and sends it yields no Expired event. -/
theorem nonpositive_lifetime_fully_reliable_no_expired_witness :
    armsTimer DefaultSendParameters = false ∧
    (mrun [MOcc.handover, MOcc.stackSent]).2.count .expiredE = 0 :=
  nonpositive_lifetime_fully_reliable_no_expired DefaultSendParameters
    [MOcc.handover, MOcc.stackSent] (by decide) (by intro h; simp at h)

/-! ## Claim theorems: close idempotence -/

theorem cstep_closed (s : CloseSt) (c : CCmd) (h : s.isOpen = false) :
    cstep s c = s := by
  cases c <;> simp [cstep, h]

theorem foldl_cstep_closed (cmds : List CCmd) (s : CloseSt)
    (h : s.isOpen = false) : cmds.foldl cstep s = s := by
  induction cmds with
  | nil => rfl
  | cons c rest ih => rw [List.foldl_cons, cstep_closed s c h]; exact ih

theorem foldl_cstep_inv (cmds : List CCmd) (s : CloseSt)
    (h : (s.isOpen = true ∧ s.trace.count .closedEv = 0) ∨
         (s.isOpen = false ∧ ∃ pre, s.trace = pre ++ [.closedEv] ∧
           pre.count .closedEv = 0)) :
    ((cmds.foldl cstep s).isOpen = true ∧
      (cmds.foldl cstep s).trace.count .closedEv = 0) ∨
    ((cmds.foldl cstep s).isOpen = false ∧
      ∃ pre, (cmds.foldl cstep s).trace = pre ++ [.closedEv] ∧
        pre.count .closedEv = 0) := by
  induction cmds generalizing s with
  | nil => exact h
  | cons c rest ih =>
    rw [List.foldl_cons]
    apply ih
    rcases h with ⟨ho, hc⟩ | ⟨ho, pre, htr, hpre⟩
    · cases c with
      | closeCmd =>
        right
        refine ⟨by simp [cstep, ho], s.trace, by simp [cstep, ho], hc⟩
      | sendCmd r =>
        left
        constructor
        · simp [cstep, ho]
        · simp [cstep, ho, List.count_append, hc]
      | remoteCloseCmd =>
        right
        refine ⟨by simp [cstep, ho], s.trace, by simp [cstep, ho], hc⟩
    · rw [cstep_closed s c ho]
      exact Or.inr ⟨ho, pre, htr, hpre⟩

theorem foldl_cstep_close_mem (cmds : List CCmd) (s : CloseSt)
    (h : CCmd.closeCmd ∈ cmds) : (cmds.foldl cstep s).isOpen = false := by
  induction cmds generalizing s with
  | nil => cases h
  | cons c rest ih =>
    rw [List.foldl_cons]
    rcases List.mem_cons.mp h with hc | hm
    · subst hc
      by_cases ho : s.isOpen = true
      · have hstep : cstep s .closeCmd = ⟨false, s.trace ++ [.closedEv]⟩ := by
          simp [cstep, ho]
        rw [hstep, foldl_cstep_closed rest _ rfl]
      · have hof : s.isOpen = false := by simpa using ho
        rw [cstep_closed s _ hof, foldl_cstep_closed rest s hof]
        exact hof
    · exact ih _ hm

/-- C5: Close is idempotent: over every serialized interleaving of Close
calls, Send calls, and remote closes on an established Connection, at most
one Closed event is delivered; when at least one Close call occurs, exactly
one Closed event is delivered and it is the final event, so no further
event for the Connection follows it. -/
theorem close_idempotent_exactly_one_closed (cmds : List CCmd) :
    (crun cmds).trace.count .closedEv ≤ 1 ∧
    (CCmd.closeCmd ∈ cmds →
      (crun cmds).trace.count .closedEv = 1 ∧
      ∃ pre, (crun cmds).trace = pre ++ [.closedEv] ∧
        pre.count .closedEv = 0) := by
  have hinv := foldl_cstep_inv cmds ⟨true, []⟩ (Or.inl ⟨rfl, rfl⟩)
  constructor
  · rcases hinv with ⟨_, hc⟩ | ⟨_, pre, htr, hpre⟩
    · simp only [crun]
      omega
    · show (crun cmds).trace.count .closedEv ≤ 1
      simp only [crun]
      rw [htr, List.count_append, hpre]
      simp
  · intro hm
    have hclosed := foldl_cstep_close_mem cmds ⟨true, []⟩ hm
    rcases hinv with ⟨ho, _⟩ | ⟨_, pre, htr, hpre⟩
    · rw [ho] at hclosed
      cases hclosed
    · constructor
      · simp only [crun]
        rw [htr, List.count_append, hpre]
        simp
      · exact ⟨pre, htr, hpre⟩

/-- C5 witness: two Close calls racing a Send produce exactly one Closed
event, delivered last. -/
theorem close_idempotent_exactly_one_closed_witness :
    (crun [CCmd.closeCmd, CCmd.sendCmd 0, CCmd.closeCmd]).trace.count
      .closedEv = 1 ∧
    ∃ pre, (crun [CCmd.closeCmd, CCmd.sendCmd 0, CCmd.closeCmd]).trace
      = pre ++ [.closedEv] ∧ pre.count .closedEv = 0 :=
  (close_idempotent_exactly_one_closed
    [CCmd.closeCmd, CCmd.sendCmd 0, CCmd.closeCmd]).2 (by decide)

/-! ## Claim theorems: error reporting -/

theorem foldl_estep_errorRep (occs : List EOcc) (s : ESt) (i : Nat)
    (h : EEv.errorRep i ∈ (occs.foldl estep s).trace) :
    EEv.errorRep i ∈ s.trace ∨ EOcc.errOcc i false ∈ occs := by
  induction occs generalizing s with
  | nil => exact Or.inl h
  | cons o rest ih =>
    rw [List.foldl_cons] at h
    rcases ih _ h with hmem | hocc
    · obtain ⟨j, closing⟩ := o
      by_cases ho : s.isOpen = true
      · cases closing with
        | true =>
          have hstep : estep s (.errOcc j true)
              = ⟨false, s.trace ++ [.closedRep (some j)]⟩ := by
            simp [estep, ho]
          rw [hstep] at hmem
          rcases List.mem_append.mp hmem with hl | hr
          · exact Or.inl hl
          · simp at hr
        | false =>
          have hstep : estep s (.errOcc j false)
              = ⟨true, s.trace ++ [.errorRep j]⟩ := by
            simp [estep, ho]
          rw [hstep] at hmem
          rcases List.mem_append.mp hmem with hl | hr
          · exact Or.inl hl
          · have hij : i = j := by simpa using hr
            subst hij
            exact Or.inr (List.mem_cons_self _ _)
      · have hof : s.isOpen = false := by simpa using ho
        have hstep : estep s (.errOcc j closing) = s := by
          simp [estep, hof]
        rw [hstep] at hmem
        exact Or.inl hmem
    · exact Or.inr (List.mem_cons_of_mem _ hocc)

theorem foldl_estep_closedRep (occs : List EOcc) (s : ESt) (i : Nat)
    (h : EEv.closedRep (some i) ∈ (occs.foldl estep s).trace) :
    EEv.closedRep (some i) ∈ s.trace ∨ EOcc.errOcc i true ∈ occs := by
  induction occs generalizing s with
  | nil => exact Or.inl h
  | cons o rest ih =>
    rw [List.foldl_cons] at h
    rcases ih _ h with hmem | hocc
    · obtain ⟨j, closing⟩ := o
      by_cases ho : s.isOpen = true
      · cases closing with
        | true =>
          have hstep : estep s (.errOcc j true)
              = ⟨false, s.trace ++ [.closedRep (some j)]⟩ := by
            simp [estep, ho]
          rw [hstep] at hmem
          rcases List.mem_append.mp hmem with hl | hr
          · exact Or.inl hl
          · have hij : i = j := by simpa using hr
            subst hij
            exact Or.inr (List.mem_cons_self _ _)
        | false =>
          have hstep : estep s (.errOcc j false)
              = ⟨true, s.trace ++ [.errorRep j]⟩ := by
            simp [estep, ho]
          rw [hstep] at hmem
          rcases List.mem_append.mp hmem with hl | hr
          · exact Or.inl hl
          · simp at hr
      · have hof : s.isOpen = false := by simpa using ho
        have hstep : estep s (.errOcc j closing) = s := by
          simp [estep, hof]
        rw [hstep] at hmem
        exact Or.inl hmem
    · exact Or.inr (List.mem_cons_of_mem _ hocc)

/-- C9: for every error identity, the Error event is delivered only for a
non-closing occurrence of that error, the Closed event carries it only for
a connection-closing occurrence, and no error is reported by both the
Error event and the Closed event. -/
theorem error_closed_report_disjoint (occs : List EOcc)
    (hids : (occs.map eid).Nodup) (i : Nat) :
    (EEv.errorRep i ∈ (erun occs).trace → EOcc.errOcc i false ∈ occs) ∧
    (EEv.closedRep (some i) ∈ (erun occs).trace →
      EOcc.errOcc i true ∈ occs) ∧
    ¬(EEv.errorRep i ∈ (erun occs).trace ∧
      EEv.closedRep (some i) ∈ (erun occs).trace) := by
  have herr : EEv.errorRep i ∈ (erun occs).trace →
      EOcc.errOcc i false ∈ occs := by
    intro h
    rcases foldl_estep_errorRep occs ⟨true, []⟩ i h with hmem | hocc
    · simp at hmem
    · exact hocc
  have hcl : EEv.closedRep (some i) ∈ (erun occs).trace →
      EOcc.errOcc i true ∈ occs := by
    intro h
    rcases foldl_estep_closedRep occs ⟨true, []⟩ i h with hmem | hocc
    · simp at hmem
    · exact hocc
  refine ⟨herr, hcl, ?_⟩
  rintro ⟨he, hc⟩
  have h1 := herr he
  have h2 := hcl hc
  have heq : EOcc.errOcc i false = EOcc.errOcc i true :=
    List.inj_on_of_nodup_map hids h1 h2 rfl
  cases heq

/-- C9 witness: a non-closing error and a separate closing error are each
reported exactly one way. -/
theorem error_closed_report_disjoint_witness :
    ¬(EEv.errorRep 0 ∈ (erun [EOcc.errOcc 0 false, EOcc.errOcc 1 true]).trace ∧
      EEv.closedRep (some 0) ∈
        (erun [EOcc.errOcc 0 false, EOcc.errOcc 1 true]).trace) :=
  (error_closed_report_disjoint [EOcc.errOcc 0 false, EOcc.errOcc 1 true]
    (by decide) 0).2.2

/-! ## Claim theorems: the message scheduler -/

theorem pref_refl (a : QMsg) : pref a a = true := by
  simp [pref]

theorem pref_total (a b : QMsg) : pref a b = true ∨ pref b a = true := by
  simp only [pref, decide_eq_true_eq]
  omega

theorem pref_trans {a b c : QMsg} (h1 : pref a b = true)
    (h2 : pref b c = true) : pref a c = true := by
  simp only [pref, decide_eq_true_eq] at h1 h2 ⊢
  omega

theorem chooseBest_mem (l : List QMsg) (best : QMsg) :
    chooseBest best l ∈ best :: l := by
  induction l generalizing best with
  | nil => simp [chooseBest]
  | cons x rest ih =>
    rw [chooseBest]
    have h := ih (if pref x best then x else best)
    rcases List.mem_cons.mp h with heq | hmem
    · rw [heq]
      by_cases hp : pref x best = true
      · simp [hp]
      · simp [hp]
    · exact List.mem_cons_of_mem _ (List.mem_cons_of_mem _ hmem)

theorem chooseBest_pref (l : List QMsg) (best : QMsg) :
    ∀ y ∈ best :: l, pref (chooseBest best l) y = true := by
  induction l generalizing best with
  | nil =>
    intro y hy
    have hyb : y = best := by simpa using hy
    subst hyb
    simpa [chooseBest] using pref_refl y
  | cons x rest ih =>
    intro y hy
    rw [chooseBest]
    have hbb : pref (if pref x best then x else best) best = true := by
      by_cases hp : pref x best = true
      · rw [if_pos hp]; exact hp
      · rw [if_neg hp]; exact pref_refl best
    have hbx : pref (if pref x best then x else best) x = true := by
      by_cases hp : pref x best = true
      · rw [if_pos hp]; exact pref_refl x
      · rw [if_neg hp]
        rcases pref_total x best with h1 | h2
        · exact absurd h1 hp
        · exact h2
    have hrb : pref (chooseBest (if pref x best then x else best) rest)
        (if pref x best then x else best) = true :=
      ih _ _ (List.mem_cons_self _ _)
    rcases List.mem_cons.mp hy with h1 | hy2
    · subst h1
      exact pref_trans hrb hbb
    · rcases List.mem_cons.mp hy2 with h2 | hy3
      · subst h2
        exact pref_trans hrb hbx
      · exact ih _ y (List.mem_cons_of_mem _ hy3)

theorem selectNext_spec {q : List QMsg} {m : QMsg}
    (h : selectNext q = some m) :
    m ∈ q ∧ eligible q m = true ∧
    ∀ y ∈ q, eligible q y = true → pref m y = true := by
  unfold selectNext at h
  cases hf : q.filter (eligible q) with
  | nil => rw [hf] at h; cases h
  | cons e es =>
    rw [hf] at h
    have hm : m = chooseBest e es := (Option.some.inj h).symm
    have hmem : m ∈ e :: es := hm ▸ chooseBest_mem es e
    rw [← hf] at hmem
    refine ⟨List.mem_of_mem_filter hmem, List.of_mem_filter hmem, ?_⟩
    intro y hy hel
    have hyf : y ∈ q.filter (eligible q) := List.mem_filter.mpr ⟨hy, hel⟩
    rw [hf] at hyf
    exact hm ▸ chooseBest_pref es e y hyf

theorem eligible_unordered {q : List QMsg} {m : QMsg}
    (h : m.ordered = false) : eligible q m = true := by
  simp [eligible, h]

theorem selectNext_ordered_min {q : List QMsg} {m : QMsg}
    (hsel : selectNext q = some m) (hord : m.ordered = true) :
    ∀ x ∈ q, x.ordered = true → m.seq ≤ x.seq := by
  intro x hx hxord
  have hel := (selectNext_spec hsel).2.1
  simp only [eligible, hord, Bool.not_true, Bool.false_or,
    List.all_eq_true] at hel
  have := hel x hx
  simp only [Bool.or_eq_true, Bool.not_eq_true', decide_eq_true_eq] at this
  rcases this with h1 | h2
  · rw [hxord] at h1; cases h1
  · exact h2

theorem selectNext_niceness_min {q : List QMsg} {m : QMsg}
    (hsel : selectNext q = some m) :
    ∀ x ∈ q, x.ordered = false →
      m.niceness < x.niceness ∨
        (m.niceness = x.niceness ∧ m.seq ≤ x.seq) := by
  intro x hx hxord
  have hp := (selectNext_spec hsel).2.2 x hx (eligible_unordered hxord)
  simpa [pref] using hp

theorem drainFuel_subset : ∀ (n : Nat) (q : List QMsg),
    ∀ y ∈ drainFuel n q, y ∈ q := by
  intro n
  induction n with
  | zero => intro q y hy; cases hy
  | succ n ih =>
    intro q y hy
    rw [drainFuel] at hy
    cases hsel : selectNext q with
    | none => rw [hsel] at hy; cases hy
    | some m =>
      rw [hsel] at hy
      rcases List.mem_cons.mp hy with h1 | h2
      · subst h1; exact (selectNext_spec hsel).1
      · exact List.erase_subset _ _ (ih _ y h2)

theorem drainFuel_ordered_pairwise : ∀ (n : Nat) (q : List QMsg),
    ((drainFuel n q).filter (fun m => m.ordered)).Pairwise
      (fun a b => a.seq ≤ b.seq) := by
  intro n
  induction n with
  | zero => intro q; simp [drainFuel]
  | succ n ih =>
    intro q
    rw [drainFuel]
    cases hsel : selectNext q with
    | none => simp
    | some m =>
      simp only [List.filter_cons]
      by_cases hord : m.ordered = true
      · rw [if_pos (by simpa using hord)]
        refine List.Pairwise.cons ?_ (ih _)
        intro b hb
        have hb1 : b ∈ drainFuel n (q.erase m) := List.mem_of_mem_filter hb
        have hb2 : b.ordered = true := by simpa using List.of_mem_filter hb
        have hbq : b ∈ q := List.erase_subset _ _ (drainFuel_subset n _ b hb1)
        exact selectNext_ordered_min hsel hord b hbq hb2
      · rw [if_neg (by simpa using hord)]
        exact ih _

theorem drainFuel_unordered_fifo : ∀ (n : Nat) (q : List QMsg) (k : Nat),
    ((drainFuel n q).filter
      (fun m => !m.ordered && m.niceness == k)).Pairwise
      (fun a b => a.seq ≤ b.seq) := by
  intro n
  induction n with
  | zero => intro q k; simp [drainFuel]
  | succ n ih =>
    intro q k
    rw [drainFuel]
    cases hsel : selectNext q with
    | none => simp
    | some m =>
      simp only [List.filter_cons]
      by_cases hm : (!m.ordered && m.niceness == k) = true
      · rw [if_pos hm]
        have hmk : m.niceness = k := by
          simp only [Bool.and_eq_true, beq_iff_eq] at hm
          exact hm.2
        refine List.Pairwise.cons ?_ (ih _ k)
        intro b hb
        have hb1 : b ∈ drainFuel n (q.erase m) := List.mem_of_mem_filter hb
        have hbp := List.of_mem_filter hb
        simp only [Bool.and_eq_true, Bool.not_eq_true', beq_iff_eq] at hbp
        have hbq : b ∈ q := List.erase_subset _ _ (drainFuel_subset n _ b hb1)
        rcases selectNext_niceness_min hsel b hbq hbp.1 with h1 | h2
        · rw [hmk, hbp.2] at h1; omega
        · exact h2.2
      · rw [if_neg hm]
        exact ih _ k

theorem seqMin_mem (l : List QMsg) (m : QMsg) : seqMin m l ∈ m :: l := by
  induction l generalizing m with
  | nil => simp [seqMin]
  | cons x rest ih =>
    rw [seqMin]
    have h := ih (if x.seq < m.seq then x else m)
    rcases List.mem_cons.mp h with heq | hmem
    · rw [heq]
      by_cases hp : x.seq < m.seq
      · simp [hp]
      · simp [hp]
    · exact List.mem_cons_of_mem _ (List.mem_cons_of_mem _ hmem)

theorem seqMin_le (l : List QMsg) (m : QMsg) :
    ∀ y ∈ m :: l, (seqMin m l).seq ≤ y.seq := by
  induction l generalizing m with
  | nil =>
    intro y hy
    have hyb : y = m := by simpa using hy
    subst hyb
    simp [seqMin]
  | cons x rest ih =>
    intro y hy
    rw [seqMin]
    have hbm : (if x.seq < m.seq then x else m).seq ≤ m.seq := by
      split <;> omega
    have hbx : (if x.seq < m.seq then x else m).seq ≤ x.seq := by
      split <;> omega
    have hrb : (seqMin (if x.seq < m.seq then x else m) rest).seq ≤
        (if x.seq < m.seq then x else m).seq :=
      ih _ _ (List.mem_cons_self _ _)
    rcases List.mem_cons.mp hy with h1 | hy2
    · subst h1; omega
    · rcases List.mem_cons.mp hy2 with h2 | hy3
      · subst h2; omega
      · exact ih _ y (List.mem_cons_of_mem _ hy3)

theorem selectNext_isSome {q : List QMsg} (h : q ≠ []) :
    ∃ m, selectNext q = some m := by
  unfold selectNext
  cases hf : q.filter (eligible q) with
  | cons e es => exact ⟨chooseBest e es, rfl⟩
  | nil =>
    exfalso
    have hall : ∀ x ∈ q, eligible q x = false := by
      intro x hx
      by_contra hc
      have hel : eligible q x = true := by simpa using hc
      have hmem : x ∈ q.filter (eligible q) := List.mem_filter.mpr ⟨hx, hel⟩
      rw [hf] at hmem
      cases hmem
    by_cases hun : ∃ x ∈ q, x.ordered = false
    · obtain ⟨x, hx, hxo⟩ := hun
      have hel := eligible_unordered (q := q) hxo
      rw [hall x hx] at hel
      cases hel
    · push_neg at hun
      cases q with
      | nil => exact h rfl
      | cons h0 t =>
        have hmem : seqMin h0 t ∈ h0 :: t := seqMin_mem t h0
        have hle : ∀ y ∈ h0 :: t, (seqMin h0 t).seq ≤ y.seq := seqMin_le t h0
        have hmo : (seqMin h0 t).ordered = true := by
          have hne := hun (seqMin h0 t) hmem
          simpa using hne
        have hel : eligible (h0 :: t) (seqMin h0 t) = true := by
          simp only [eligible, hmo, Bool.not_true, Bool.false_or,
            List.all_eq_true]
          intro x hx
          simp only [Bool.or_eq_true, Bool.not_eq_true', decide_eq_true_eq]
          exact Or.inr (hle x hx)
        rw [hall _ hmem] at hel
        cases hel

theorem drainFuel_perm : ∀ (n : Nat) (q : List QMsg), q.length ≤ n →
    (drainFuel n q).Perm q := by
  intro n
  induction n with
  | zero =>
    intro q hq
    have hq0 : q = [] := List.eq_nil_of_length_eq_zero (Nat.le_zero.mp hq)
    subst hq0
    simp [drainFuel]
  | succ n ih =>
    intro q hq
    rw [drainFuel]
    by_cases hq0 : q = []
    · subst hq0
      rw [show selectNext ([] : List QMsg) = none from rfl]
    · obtain ⟨m, hsel⟩ := selectNext_isSome hq0
      rw [hsel]
      have hmq : m ∈ q := (selectNext_spec hsel).1
      have hpos : 0 < q.length := List.length_pos.mpr hq0
      have hlen : (q.erase m).length = q.length - 1 :=
        List.length_erase_of_mem hmq
      have hle : (q.erase m).length ≤ n := by omega
      exact ((ih (q.erase m) hle).cons m).trans
        (List.perm_cons_erase hmq).symm

/-- C4: ordered messages leave the per-connection send queue in submission
order regardless of niceness; messages of equal niceness with no ordering
constraint leave FIFO; every queued message leaves; and an ordered message
is not constrained relative to unordered messages, witnessed by a
later-submitted urgent unordered message overtaking an earlier ordered one
while two ordered messages keep submission order against niceness. -/
theorem scheduler_ordered_fifo_niceness (q : List QMsg) :
    ((drain q).filter (fun m => m.ordered)).Pairwise
      (fun a b => a.seq ≤ b.seq) ∧
    (∀ k, ((drain q).filter
      (fun m => !m.ordered && m.niceness == k)).Pairwise
      (fun a b => a.seq ≤ b.seq)) ∧
    (drain q).Perm q ∧
    drain [⟨1, 0, 5, true⟩, ⟨2, 1, 0, false⟩]
      = [⟨2, 1, 0, false⟩, ⟨1, 0, 5, true⟩] ∧
    drain [⟨1, 0, 5, true⟩, ⟨2, 1, 0, true⟩]
      = [⟨1, 0, 5, true⟩, ⟨2, 1, 0, true⟩] :=
  ⟨drainFuel_ordered_pairwise q.length q,
   fun k => drainFuel_unordered_fifo q.length q k,
   drainFuel_perm q.length q (Nat.le_refl _),
   by decide, by decide⟩

/-! ## Claim theorems: the connection racer -/

theorem count_set_eq_one {α : Type} [DecidableEq α] (a : α) :
    ∀ (l : List α) (i : Nat), a ∉ l → i < l.length →
      (l.set i a).count a = 1 := by
  intro l
  induction l with
  | nil => intro i ha hi; simp at hi
  | cons x xs ih =>
    intro i ha hi
    have haxs : a ∉ xs := fun hm => ha (List.mem_cons_of_mem _ hm)
    have hax : a ≠ x := fun he => ha (by rw [he]; exact List.mem_cons_self _ _)
    cases i with
    | zero =>
      show (a :: xs).count a = 1
      rw [List.count_cons, List.count_eq_zero.mpr haxs]
      simp
    | succ j =>
      show (x :: xs.set j a).count a = 1
      rw [List.count_cons, ih j haxs (by simpa using hi)]
      have hxa : (x == a) = false := by
        simp only [beq_eq_false_iff_ne]
        exact fun he => hax he.symm
      rw [hxa]
      simp

theorem promote_no_won_map {l : List AState} (hw : AState.wonA ∉ l) :
    AState.wonA ∉ l.map (fun a => if a = .inflight then .cancelledA else a) := by
  intro hmem
  obtain ⟨x, hx, hfx⟩ := List.mem_map.mp hmem
  by_cases hxi : x = AState.inflight
  · rw [if_pos hxi] at hfx; cases hfx
  · rw [if_neg hxi] at hfx
    exact hw (hfx ▸ hx)

theorem promote_count_won {l : List AState} {i : Nat}
    (hw : AState.wonA ∉ l) (hi : l[i]? = some .inflight) :
    (promote l i).count .wonA = 1 := by
  have hlt : i < l.length := by
    by_contra hc
    rw [List.getElem?_eq_none (by omega)] at hi
    cases hi
  unfold promote
  exact count_set_eq_one _ _ i (promote_no_won_map hw) (by simpa using hlt)

theorem promote_no_inflight {l : List AState} {i : Nat} :
    AState.inflight ∉ promote l i := by
  unfold promote
  intro hmem
  rcases List.mem_or_eq_of_mem_set hmem with h1 | h2
  · obtain ⟨x, hx, hfx⟩ := List.mem_map.mp h1
    by_cases hxi : x = AState.inflight
    · rw [if_pos hxi] at hfx; cases hfx
    · rw [if_neg hxi] at hfx; exact hxi hfx
  · cases h2

theorem set_failed_no_won {l : List AState} {i : Nat}
    (hw : AState.wonA ∉ l) : AState.wonA ∉ l.set i .failedA := by
  intro hmem
  rcases List.mem_or_eq_of_mem_set hmem with h1 | h2
  · exact hw h1
  · cases h2

theorem countReady_cons_ready (x : Option Nat) (tr : List REv) :
    countReady (.ready x :: tr) = countReady tr + 1 := by
  unfold countReady
  rw [List.filter_cons_of_pos (by rfl)]
  rfl

theorem countReady_append (t1 t2 : List REv) :
    countReady (t1 ++ t2) = countReady t1 + countReady t2 := by
  unfold countReady
  rw [List.filter_append, List.length_append]

theorem ready_not_mem_of_countReady_zero {tr : List REv}
    (h : countReady tr = 0) (a : Option Nat) : REv.ready a ∉ tr := by
  intro hm
  unfold countReady at h
  have hmem : REv.ready a ∈ tr.filter
      (fun e => match e with | .ready _ => true | _ => false) :=
    List.mem_filter.mpr ⟨hm, rfl⟩
  have hpos := List.length_pos.mpr (List.ne_nil_of_mem hmem)
  omega

theorem rstep_ante (s : RState) (o : ROcc) : (rstep s o).ante = s.ante := by
  cases o <;> simp only [rstep] <;> (repeat' split) <;> rfl

theorem foldl_rstep_ante (occs : List ROcc) (s : RState) :
    (occs.foldl rstep s).ante = s.ante := by
  induction occs generalizing s with
  | nil => rfl
  | cons o rest ih => rw [List.foldl_cons, ih, rstep_ante]

theorem rrun_ante (o : Origin) (n : Nat) (occs : List ROcc) :
    (rrun o n occs).ante = anteOf o := by
  unfold rrun
  rw [foldl_rstep_ante]
  rfl

theorem rstep_inv {s : RState} (h : RInv s) (o : ROcc) : RInv (rstep s o) := by
  unfold RInv at h ⊢
  obtain ⟨hI, hF, hE⟩ := h
  cases o with
  | succeed i =>
    simp only [rstep]
    split
    · rename_i hc
      obtain ⟨hconn, hatt⟩ := hc
      obtain ⟨htr, hw⟩ := hI hconn
      refine ⟨?_, ?_, ?_⟩
      · intro hx; simp at hx
      · intro hx; simp at hx
      · intro _
        refine ⟨⟨[], ?_, rfl⟩, ?_, ?_⟩
        · simp [htr]
        · exact promote_count_won hw hatt
        · exact promote_no_inflight
    · exact ⟨hI, hF, hE⟩
  | failO i =>
    simp only [rstep]
    split
    · rename_i hc
      obtain ⟨hconn, hatt⟩ := hc
      obtain ⟨htr, hw⟩ := hI hconn
      split
      · refine ⟨?_, ?_, ?_⟩
        · intro hx; simp at hx
        · intro _
          exact ⟨by simp [htr], set_failed_no_won hw⟩
        · intro hx; rcases hx with hx | hx <;> simp at hx
      · refine ⟨?_, ?_, ?_⟩
        · intro _
          exact ⟨htr, set_failed_no_won hw⟩
        · intro hx
          have hx2 : s.conn = .failedS := hx
          rw [hconn] at hx2
          simp at hx2
        · intro hx
          rcases hx with hx | hx <;>
            (first
              | (have hx2 : s.conn = .established := hx
                 rw [hconn] at hx2
                 simp at hx2)
              | (have hx2 : s.conn = .closedS := hx
                 rw [hconn] at hx2
                 simp at hx2))
    · exact ⟨hI, hF, hE⟩
  | sentO r =>
    simp only [rstep]
    split
    · rename_i hconn
      obtain ⟨⟨rest, htr, hcr⟩, hcount, hinf⟩ := hE (Or.inl hconn)
      refine ⟨?_, ?_, ?_⟩
      · intro hx
        have hx2 : s.conn = .initiating := hx
        rw [hconn] at hx2; simp at hx2
      · intro hx
        have hx2 : s.conn = .failedS := hx
        rw [hconn] at hx2; simp at hx2
      · intro _
        refine ⟨⟨rest ++ [.sent r], ?_, ?_⟩, hcount, hinf⟩
        · show s.trace ++ [REv.sent r] = REv.ready s.ante :: (rest ++ [.sent r])
          rw [htr]; rfl
        · rw [countReady_append, hcr]; rfl
    · exact ⟨hI, hF, hE⟩
  | expiredO r =>
    simp only [rstep]
    split
    · rename_i hconn
      obtain ⟨⟨rest, htr, hcr⟩, hcount, hinf⟩ := hE (Or.inl hconn)
      refine ⟨?_, ?_, ?_⟩
      · intro hx
        have hx2 : s.conn = .initiating := hx
        rw [hconn] at hx2; simp at hx2
      · intro hx
        have hx2 : s.conn = .failedS := hx
        rw [hconn] at hx2; simp at hx2
      · intro _
        refine ⟨⟨rest ++ [.expired r], ?_, ?_⟩, hcount, hinf⟩
        · show s.trace ++ [REv.expired r] = REv.ready s.ante :: (rest ++ [.expired r])
          rw [htr]; rfl
        · rw [countReady_append, hcr]; rfl
    · exact ⟨hI, hF, hE⟩
  | errO =>
    simp only [rstep]
    split
    · rename_i hconn
      obtain ⟨⟨rest, htr, hcr⟩, hcount, hinf⟩ := hE (Or.inl hconn)
      refine ⟨?_, ?_, ?_⟩
      · intro hx
        have hx2 : s.conn = .initiating := hx
        rw [hconn] at hx2; simp at hx2
      · intro hx
        have hx2 : s.conn = .failedS := hx
        rw [hconn] at hx2; simp at hx2
      · intro _
        refine ⟨⟨rest ++ [.errorEv], ?_, ?_⟩, hcount, hinf⟩
        · show s.trace ++ [REv.errorEv] = REv.ready s.ante :: (rest ++ [.errorEv])
          rw [htr]; rfl
        · rw [countReady_append, hcr]; rfl
    · exact ⟨hI, hF, hE⟩
  | closeO =>
    simp only [rstep]
    split
    · rename_i hconn
      obtain ⟨⟨rest, htr, hcr⟩, hcount, hinf⟩ := hE (Or.inl hconn)
      refine ⟨?_, ?_, ?_⟩
      · intro hx; simp at hx
      · intro hx; simp at hx
      · intro _
        refine ⟨⟨rest ++ [.closedEv], ?_, ?_⟩, hcount, hinf⟩
        · show s.trace ++ [REv.closedEv] = REv.ready s.ante :: (rest ++ [.closedEv])
          rw [htr]; rfl
        · rw [countReady_append, hcr]; rfl
    · exact ⟨hI, hF, hE⟩

theorem rrun_inv (o : Origin) (n : Nat) (occs : List ROcc) :
    RInv (rrun o n occs) := by
  unfold rrun
  have hinit : RInv (rinit o n) := by
    unfold RInv rinit
    refine ⟨?_, ?_, ?_⟩
    · intro _
      refine ⟨rfl, ?_⟩
      intro hm
      rcases (List.mem_replicate.mp hm) with ⟨_, he⟩
      cases he
    · intro hx; simp at hx
    · intro hx; rcases hx with hx | hx <;> simp at hx
  generalize hgen : rinit o n = s at hinit
  clear hgen
  induction occs generalizing s with
  | nil => exact hinit
  | cons oc rest ih =>
    rw [List.foldl_cons]
    exact ih _ (rstep_inv hinit oc)

/-- C1: whenever the racing establishment delivers a Ready for a
Connection, it is the very first event delivered, it is the only Ready ever
delivered, exactly one candidate attempt has been promoted to the winner,
and no other attempt is left in flight: every loser was cancelled or had
failed, and a success of a cancelled attempt is never promoted. -/
theorem racer_exactly_one_ready_first_losers_cancelled
    (o : Origin) (n : Nat) (occs : List ROcc) (a : Option Nat)
    (h : REv.ready a ∈ (rrun o n occs).trace) :
    ∃ rest, (rrun o n occs).trace = .ready (anteOf o) :: rest ∧
      countReady rest = 0 ∧
      countReady (rrun o n occs).trace = 1 ∧
      (rrun o n occs).attempts.count .wonA = 1 ∧
      AState.inflight ∉ (rrun o n occs).attempts := by
  have hinv := rrun_inv o n occs
  have hante := rrun_ante o n occs
  unfold RInv at hinv
  obtain ⟨hI, hF, hE⟩ := hinv
  cases hconn : (rrun o n occs).conn with
  | initiating =>
    obtain ⟨htr, _⟩ := hI hconn
    rw [htr] at h
    cases h
  | failedS =>
    obtain ⟨htr, _⟩ := hF hconn
    rw [htr] at h
    simp at h
  | established =>
    obtain ⟨⟨rest, htr, hcr⟩, hcount, hinf⟩ := hE (Or.inl hconn)
    refine ⟨rest, ?_, hcr, ?_, hcount, hinf⟩
    · rw [htr, hante]
    · rw [htr, countReady_cons_ready, hcr]
  | closedS =>
    obtain ⟨⟨rest, htr, hcr⟩, hcount, hinf⟩ := hE (Or.inr hconn)
    refine ⟨rest, ?_, hcr, ?_, hcount, hinf⟩
    · rw [htr, hante]
    · rw [htr, countReady_cons_ready, hcr]

/-- C1 witness: two candidates, the first fails, the second succeeds and is
promoted, and a message is then sent. -/
theorem racer_exactly_one_ready_first_losers_cancelled_witness :
    ∃ rest, (rrun .initiateO 2 [.failO 0, .succeed 1, .sentO 7]).trace
      = .ready (anteOf .initiateO) :: rest ∧
      countReady rest = 0 ∧
      countReady (rrun .initiateO 2 [.failO 0, .succeed 1, .sentO 7]).trace = 1 ∧
      (rrun .initiateO 2 [.failO 0, .succeed 1, .sentO 7]).attempts.count
        .wonA = 1 ∧
      AState.inflight ∉ (rrun .initiateO 2 [.failO 0, .succeed 1, .sentO 7]).attempts :=
  racer_exactly_one_ready_first_losers_cancelled .initiateO 2
    [.failO 0, .succeed 1, .sentO 7] none (by decide)

/-- C6: the antecedent carried by Ready is nil for Connections opened by
Initiate or Rendezvous, the listening Connection for passively accepted
Connections, and the source Connection for Clone; the antecedent reference
is fixed at initialization, every Ready delivers exactly that reference,
and no step of the machine ever changes it. -/
theorem ready_antecedent_by_origin_fixed (o : Origin) (n : Nat)
    (occs : List ROcc) :
    anteOf .initiateO = none ∧ anteOf .rendezvousO = none ∧
    (∀ l, anteOf (.listenO l) = some l) ∧
    (∀ c, anteOf (.cloneO c) = some c) ∧
    (rrun o n occs).ante = anteOf o ∧
    (∀ a, REv.ready a ∈ (rrun o n occs).trace → a = anteOf o) := by
  refine ⟨rfl, rfl, fun _ => rfl, fun _ => rfl, rrun_ante o n occs, ?_⟩
  intro a ha
  have hinv := rrun_inv o n occs
  have hante := rrun_ante o n occs
  unfold RInv at hinv
  obtain ⟨hI, hF, hE⟩ := hinv
  cases hconn : (rrun o n occs).conn with
  | initiating =>
    obtain ⟨htr, _⟩ := hI hconn
    rw [htr] at ha
    cases ha
  | failedS =>
    obtain ⟨htr, _⟩ := hF hconn
    rw [htr] at ha
    simp at ha
  | established =>
    obtain ⟨⟨rest, htr, hcr⟩, _, _⟩ := hE (Or.inl hconn)
    rw [htr] at ha
    rcases List.mem_cons.mp ha with h1 | h2
    · rw [← hante]
      exact (REv.ready.inj h1)
    · exact absurd h2 (ready_not_mem_of_countReady_zero hcr a)
  | closedS =>
    obtain ⟨⟨rest, htr, hcr⟩, _, _⟩ := hE (Or.inr hconn)
    rw [htr] at ha
    rcases List.mem_cons.mp ha with h1 | h2
    · rw [← hante]
      exact (REv.ready.inj h1)
    · exact absurd h2 (ready_not_mem_of_countReady_zero hcr a)

/-- C6 witness: a cloned Connection reports its source as antecedent, and
the reference is intact after the run. -/
theorem ready_antecedent_by_origin_fixed_witness :
    (rrun (.cloneO 5) 1 [.succeed 0]).ante = anteOf (.cloneO 5) ∧
    (some 5 : Option Nat) = anteOf (.cloneO 5) :=
  ⟨(ready_antecedent_by_origin_fixed (.cloneO 5) 1 [.succeed 0]).2.2.2.2.1,
   (ready_antecedent_by_origin_fixed (.cloneO 5) 1 [.succeed 0]).2.2.2.2.2
     (some 5) (by decide)⟩
